import Mathlib

/-!
Verification of the jinglebells synthesis-and-effects engine.

The Rust source is shallowly embedded over `ℚ`: every `f32` value is
modelled as a rational, decimal literals become the exact rationals they
denote, and the two transcendental library functions the code calls
(`sin` and `exp`) are passed in as function parameters, together with the
constant `2 * PI` (`twoPi`).  Rust's `as usize` cast of a float
(truncation toward zero, saturating at 0) is `ratToUsize`, and Rust's
`%` remainder (sign of the dividend) on a modulus of 1 is `fmod1`.
Stateful methods become explicit state passing: a method returning a
sample becomes a function returning the sample paired with the new state.
-/

namespace Jingle

/-- `SAMPLE_RATE` from src/lib.rs. -/
def SAMPLE_RATE : ℕ := 44100

/-- Rust `as usize` applied to a float value modelled as a rational:
truncation toward zero, with negative values saturating to 0. -/
def ratToUsize (x : ℚ) : ℕ := (⌊x⌋).toNat

/-- Truncation toward zero, as Rust float casts and `%` use. -/
def qtrunc (x : ℚ) : ℤ := if 0 ≤ x then ⌊x⌋ else -⌊-x⌋

/-- Rust `x % 1.0`: remainder with the sign of the dividend. -/
def fmod1 (x : ℚ) : ℚ := x - qtrunc x

/-- Rust `f32::clamp`. -/
def clampQ (x lo hi : ℚ) : ℚ := max lo (min x hi)

/-- `WaveForm` from src/audio.rs. -/
inductive WaveForm
  | Sine
  | Triangle
  | Sawtooth
  | Square
deriving DecidableEq

/-- `ADSR` from src/audio.rs. -/
structure ADSR where
  attack : ℚ
  decay : ℚ
  sustain : ℚ
  release : ℚ
deriving DecidableEq

/-- `ADSR::default` from src/audio.rs. -/
def ADSR.default : ADSR := ⟨1/10, 1/10, 7/10, 1/5⟩

/-- The waveform match shared by `Oscillator::generate_wave` and
`LayeredOscillator::generate_layer_wave` (src/audio.rs): a pure map from
the already-computed phase to an amplitude.  `sinf` stands for `f32::sin`
and `twoPi` for the constant `2.0 * PI`. -/
def generate_wave (sinf : ℚ → ℚ) (twoPi : ℚ) (w : WaveForm) (phase : ℚ) : ℚ :=
  match w with
  | .Sine => sinf phase
  | .Triangle =>
      let normalized_phase := fmod1 (phase / twoPi)
      if normalized_phase < 1/2 then 4 * normalized_phase - 1
      else 3 - 4 * normalized_phase
  | .Sawtooth =>
      let normalized_phase := fmod1 (phase / twoPi)
      2 * normalized_phase - 1
  | .Square => if 0 ≤ sinf phase then 1 else -1

/-- `get_amplitude_envelope` (identical in `Oscillator` and
`LayeredOscillator`, src/audio.rs), as a function of the ADSR, the total
duration and the elapsed time. -/
def get_amplitude_envelope (adsr : ADSR) (total_duration time : ℚ) : ℚ :=
  let attack_time := adsr.attack
  let decay_time := adsr.decay
  let release_start := total_duration - adsr.release
  if time < attack_time then
    time / attack_time
  else if time < attack_time + decay_time then
    let decay_progress := (time - attack_time) / decay_time
    1 - decay_progress * (1 - adsr.sustain)
  else if time < release_start then
    adsr.sustain
  else
    let release_progress := (time - release_start) / adsr.release
    adsr.sustain * (1 - release_progress)

/-- `Oscillator` from src/audio.rs. -/
structure Oscillator where
  frequency : ℚ
  waveform : WaveForm
  adsr : ADSR
  sample_rate : ℕ
  current_sample : ℕ
  total_duration : ℚ

/-- `Oscillator::new`. -/
def Oscillator.new (frequency : ℚ) (waveform : WaveForm) (duration : ℚ) : Oscillator :=
  { frequency := frequency
    waveform := waveform
    adsr := ADSR.default
    sample_rate := SAMPLE_RATE
    current_sample := 0
    total_duration := duration }

/-- `Oscillator::with_adsr`. -/
def Oscillator.with_adsr (o : Oscillator) (adsr : ADSR) : Oscillator :=
  { o with adsr := adsr }

/-- `<Oscillator as Iterator>::next` (src/audio.rs): returns the produced
sample together with the successor state, or `none` once exhausted. -/
def Oscillator.next (sinf : ℚ → ℚ) (twoPi : ℚ) (o : Oscillator) : Option (ℚ × Oscillator) :=
  let time : ℚ := (o.current_sample : ℚ) / (o.sample_rate : ℚ)
  if o.total_duration ≤ time then none
  else
    let wave_value := generate_wave sinf twoPi o.waveform (time * o.frequency * twoPi)
    let envelope := get_amplitude_envelope o.adsr o.total_duration time
    some (wave_value * envelope * (3/10), { o with current_sample := o.current_sample + 1 })

/-- Iterate `Oscillator.next` `n` times, keeping the state unchanged on
exhaustion. -/
def Oscillator.stepN (sinf : ℚ → ℚ) (twoPi : ℚ) : ℕ → Oscillator → Oscillator
  | 0, o => o
  | n + 1, o =>
      match Oscillator.next sinf twoPi (Oscillator.stepN sinf twoPi n o) with
      | some p => p.2
      | none => Oscillator.stepN sinf twoPi n o

/-- `OscillatorLayer` from src/audio.rs. -/
structure OscillatorLayer where
  frequency_offset : ℚ
  waveform : WaveForm
  amplitude : ℚ
  phase_offset : ℚ

/-- `LayeredOscillator` from src/audio.rs. -/
structure LayeredOscillator where
  base_frequency : ℚ
  layers : List OscillatorLayer
  adsr : ADSR
  sample_rate : ℕ
  current_sample : ℕ
  total_duration : ℚ

/-- `LayeredOscillator::new`. -/
def LayeredOscillator.new (frequency : ℚ) (waveform : WaveForm) (duration : ℚ) :
    LayeredOscillator :=
  { base_frequency := frequency
    layers := [{ frequency_offset := 1, waveform := waveform, amplitude := 1, phase_offset := 0 }]
    adsr := ADSR.default
    sample_rate := SAMPLE_RATE
    current_sample := 0
    total_duration := duration }

/-- `LayeredOscillator::add_layer`. -/
def LayeredOscillator.add_layer (lo : LayeredOscillator) (layer : OscillatorLayer) :
    LayeredOscillator :=
  { lo with layers := lo.layers ++ [layer] }

/-- `LayeredOscillator::with_adsr`. -/
def LayeredOscillator.with_adsr (lo : LayeredOscillator) (adsr : ADSR) : LayeredOscillator :=
  { lo with adsr := adsr }

/-- `LayeredOscillator::generate_layer_wave`. -/
def LayeredOscillator.generate_layer_wave (sinf : ℚ → ℚ) (twoPi : ℚ)
    (lo : LayeredOscillator) (layer : OscillatorLayer) (time : ℚ) : ℚ :=
  let frequency := lo.base_frequency * layer.frequency_offset
  let phase := time * frequency * twoPi + layer.phase_offset
  generate_wave sinf twoPi layer.waveform phase * layer.amplitude

/-- `LayeredOscillator::generate_combined_wave`. -/
def LayeredOscillator.generate_combined_wave (sinf : ℚ → ℚ) (twoPi : ℚ)
    (lo : LayeredOscillator) (time : ℚ) : ℚ :=
  let combined :=
    lo.layers.foldl (fun acc layer => acc + lo.generate_layer_wave sinf twoPi layer time) 0
  let total_amplitude := lo.layers.foldl (fun acc layer => acc + layer.amplitude) 0
  if 0 < total_amplitude then combined / total_amplitude else 0

/-- `<LayeredOscillator as Iterator>::next`. -/
def LayeredOscillator.next (sinf : ℚ → ℚ) (twoPi : ℚ) (lo : LayeredOscillator) :
    Option (ℚ × LayeredOscillator) :=
  let time : ℚ := (lo.current_sample : ℚ) / (lo.sample_rate : ℚ)
  if lo.total_duration ≤ time then none
  else
    let wave_value := lo.generate_combined_wave sinf twoPi time
    let envelope := get_amplitude_envelope lo.adsr lo.total_duration time
    some (wave_value * envelope * (3/10), { lo with current_sample := lo.current_sample + 1 })

/-- `DelayBuffer` from src/effects.rs.  `buffer` is the `VecDeque` with its
front at the head of the list. -/
structure DelayBuffer where
  buffer : List ℚ
  max_delay_samples : ℕ
  delay_samples : ℕ
  feedback : ℚ
  mix : ℚ

/-- `DelayBuffer::new`. -/
def DelayBuffer.new (delay_ms feedback mix : ℚ) : DelayBuffer :=
  let delay_samples := ratToUsize (delay_ms / 1000 * (SAMPLE_RATE : ℚ))
  let max_delay_samples := Nat.max delay_samples 1
  { buffer := []
    max_delay_samples := max_delay_samples
    delay_samples := delay_samples
    feedback := clampQ feedback 0 (19/20)
    mix := clampQ mix 0 1 }

/-- `DelayBuffer::process_sample`: the zero-padding `while` loop, the
guarded read `delay_samples` behind the write head, the feedback push, the
capacity eviction, and the wet/dry mix of the return value. -/
def DelayBuffer.process_sample (db : DelayBuffer) (input : ℚ) : ℚ × DelayBuffer :=
  let buf1 := db.buffer ++ List.replicate (db.max_delay_samples - db.buffer.length) 0
  let delayed_sample :=
    if db.delay_samples < buf1.length then buf1.getD (buf1.length - db.delay_samples - 1) 0
    else 0
  let output_sample := input + delayed_sample * db.feedback
  let buf2 := buf1 ++ [output_sample]
  let buf3 := if db.max_delay_samples < buf2.length then buf2.tail else buf2
  (input * (1 - db.mix) + delayed_sample * db.mix, { db with buffer := buf3 })

/-- The fixed tap delays of `Reverb::new` (src/effects.rs). -/
def reverbDelays : List ℚ := [29, 37, 41, 43, 47, 53, 59, 61]

/-- `Reverb::new` (src/effects.rs), restricted to its own state: the list
of eight delay buffers (the upstream source is supplied per sample). -/
def Reverb.new (room_size damping mix : ℚ) : List DelayBuffer :=
  reverbDelays.map (fun delay_ms =>
    DelayBuffer.new (delay_ms * room_size) (damping * (3/5)) (mix * (1/8)))

/-- One step of `<Reverb as Iterator>::next` given the upstream sample:
feed the sample into every delay buffer, sum the returns onto the dry
sample, and scale by 0.7. -/
def Reverb.step (bufs : List DelayBuffer) (sample : ℚ) : ℚ × List DelayBuffer :=
  let folded := bufs.foldl
    (fun (acc : ℚ × List DelayBuffer) db =>
      let r := db.process_sample sample
      (acc.1 + r.1, acc.2 ++ [r.2]))
    (sample, ([] : List DelayBuffer))
  (folded.1 * (7/10), folded.2)

/-- The unit impulse stream: first upstream sample 1.0, all later ones 0.0. -/
def impulse (n : ℕ) : ℚ := if n = 0 then 1 else 0

/-- Feed the unit impulse through a fresh `Reverb`; `runImpulse p n` is the
output sample and reverb state after processing samples `0 … n`. -/
def Reverb.runImpulse (room_size damping mix : ℚ) : ℕ → ℚ × List DelayBuffer
  | 0 => Reverb.step (Reverb.new room_size damping mix) (impulse 0)
  | n + 1 => Reverb.step (Reverb.runImpulse room_size damping mix n).2 (impulse (n + 1))

/-- `LowPassFilter` from src/effects.rs. -/
structure LowPassFilter where
  cutoff_frequency : ℚ
  sample_rate : ℚ
  alpha : ℚ
  previous_output : ℚ

/-- `LowPassFilter::new`.  `twoPi` stands for the constant `2.0 * PI`. -/
def LowPassFilter.new (twoPi cutoff_frequency sample_rate : ℚ) : LowPassFilter :=
  let rc := 1 / (twoPi * cutoff_frequency)
  let dt := 1 / sample_rate
  { cutoff_frequency := cutoff_frequency
    sample_rate := sample_rate
    alpha := dt / (rc + dt)
    previous_output := 0 }

/-- `LowPassFilter::process_sample`. -/
def LowPassFilter.process_sample (f : LowPassFilter) (input : ℚ) : ℚ × LowPassFilter :=
  let output := f.alpha * input + (1 - f.alpha) * f.previous_output
  (output, { f with previous_output := output })

/-- Repeatedly feed the constant input 1.0 to a `LowPassFilter` (the step
response); `stepRun f n` is the output of the `(n+1)`-th call and the
filter state after it. -/
def LowPassFilter.stepRun (f : LowPassFilter) : ℕ → ℚ × LowPassFilter
  | 0 => f.process_sample 1
  | n + 1 => (f.stepRun n).2.process_sample 1

/-- `AutomaticGainControl` from src/effects.rs. -/
structure AutomaticGainControl where
  target_level : ℚ
  attack_time : ℚ
  release_time : ℚ
  current_gain : ℚ
  envelope_follower : ℚ
  sample_rate : ℚ

/-- `AutomaticGainControl::new`. -/
def AutomaticGainControl.new (target_level attack_time release_time sample_rate : ℚ) :
    AutomaticGainControl :=
  { target_level := clampQ target_level 0 1
    attack_time := attack_time
    release_time := release_time
    current_gain := 1
    envelope_follower := 0
    sample_rate := sample_rate }

/-- `AutomaticGainControl::process_sample`.  `expq` stands for `f32::exp`. -/
def AutomaticGainControl.process_sample (expq : ℚ → ℚ) (agc : AutomaticGainControl)
    (input : ℚ) : ℚ × AutomaticGainControl :=
  let input_level := |input|
  let attack_coeff := expq (-1 / (agc.attack_time * agc.sample_rate))
  let release_coeff := expq (-1 / (agc.release_time * agc.sample_rate))
  let env1 :=
    if agc.envelope_follower < input_level then
      input_level + (agc.envelope_follower - input_level) * attack_coeff
    else
      input_level + (agc.envelope_follower - input_level) * release_coeff
  let required_gain := if 1/10000 < env1 then agc.target_level / env1 else 1
  let gain_diff := required_gain - agc.current_gain
  let gain_coeff := if 0 < gain_diff then release_coeff else attack_coeff
  let gain1 := agc.current_gain + gain_diff * (1 - gain_coeff)
  let gain2 := clampQ gain1 (1/10) 10
  (input * gain2, { agc with envelope_follower := env1, current_gain := gain2 })

/-- The peak computation of `normalize_samples` (src/effects.rs):
`samples.iter().map(|&x| x.abs()).fold(0.0, max)`. -/
def peakOf (samples : List ℚ) : ℚ := samples.foldl (fun acc x => max acc |x|) 0

/-- `normalize_samples` (src/effects.rs), as a function on the buffer. -/
def normalize_samples (samples : List ℚ) (target_peak : ℚ) : List ℚ :=
  if samples.isEmpty then samples
  else
    let peak := peakOf samples
    if 1/10000 < peak then samples.map (fun x => x * (target_peak / peak))
    else samples

/-- `peak_normalize` (src/effects.rs). -/
def peak_normalize (samples : List ℚ) (target_peak : ℚ) : List ℚ :=
  normalize_samples samples target_peak

/-! ### Theorems -/

/-- Claim C9: for every `LayeredOscillator` whose layers' amplitude
weights sum to a non-positive value, the per-sample combined wave is
defined to be 0.0: the normalization division is guarded by
`total_amplitude > 0.0`. -/
theorem generate_combined_wave_eq_zero_of_nonpos_total (sinf : ℚ → ℚ) (twoPi : ℚ)
    (lo : LayeredOscillator) (time : ℚ)
    (h : lo.layers.foldl (fun acc layer => acc + layer.amplitude) 0 ≤ 0) :
    lo.generate_combined_wave sinf twoPi time = 0 := by
  unfold LayeredOscillator.generate_combined_wave
  simp only [if_neg (not_lt.mpr h)]

/-- Witness for C9: a two-layer oscillator whose amplitudes 1 and -1
cancel has combined wave 0 at time 0. -/
theorem generate_combined_wave_eq_zero_of_nonpos_total_witness :
    ((LayeredOscillator.new 440 WaveForm.Sine 1).add_layer
        { frequency_offset := 1, waveform := WaveForm.Sine, amplitude := -1,
          phase_offset := 0 }).generate_combined_wave (fun _ => 0) 7 0 = 0 :=
  generate_combined_wave_eq_zero_of_nonpos_total (fun _ => 0) 7 _ 0 (by
    simp [LayeredOscillator.new, LayeredOscillator.add_layer])

/-- Claim C10: an `Oscillator` or `LayeredOscillator` whose
`total_duration` is non-positive yields `none` on the very first `next`
call: at `current_sample = 0` the elapsed time 0 already reaches the
duration. -/
theorem next_eq_none_of_nonpos_duration (sinf : ℚ → ℚ) (twoPi : ℚ)
    (o : Oscillator) (lo : LayeredOscillator)
    (ho : o.current_sample = 0) (hod : o.total_duration ≤ 0)
    (hl : lo.current_sample = 0) (hld : lo.total_duration ≤ 0) :
    Oscillator.next sinf twoPi o = none ∧ LayeredOscillator.next sinf twoPi lo = none := by
  constructor
  · unfold Oscillator.next
    rw [ho]
    simp only [Nat.cast_zero, zero_div]
    exact if_pos hod
  · unfold LayeredOscillator.next
    rw [hl]
    simp only [Nat.cast_zero, zero_div]
    exact if_pos hld

/-- Witness for C10: oscillators built with duration 0 yield no sample. -/
theorem next_eq_none_of_nonpos_duration_witness :
    Oscillator.next (fun _ => 0) 7 (Oscillator.new 440 WaveForm.Sine 0) = none ∧
      LayeredOscillator.next (fun _ => 0) 7 (LayeredOscillator.new 440 WaveForm.Square 0) = none :=
  next_eq_none_of_nonpos_duration (fun _ => 0) 7 _ _ rfl le_rfl rfl le_rfl

/-- Claim C4: with a strictly positive attack and a positive duration,
the very first sample of an `Oscillator` or a `LayeredOscillator` is
exactly 0.0, whatever the frequency, waveform and other ADSR fields: the
envelope at time 0 is `0 / attack = 0` and it multiplies the wave value. -/
theorem first_sample_eq_zero (sinf : ℚ → ℚ) (twoPi : ℚ)
    (o : Oscillator) (lo : LayeredOscillator)
    (ho : o.current_sample = 0) (hoa : 0 < o.adsr.attack) (hod : 0 < o.total_duration)
    (hl : lo.current_sample = 0) (hla : 0 < lo.adsr.attack) (hld : 0 < lo.total_duration) :
    (Oscillator.next sinf twoPi o).map Prod.fst = some 0 ∧
      (LayeredOscillator.next sinf twoPi lo).map Prod.fst = some 0 := by
  have henv : ∀ (adsr : ADSR) (d : ℚ), 0 < adsr.attack →
      get_amplitude_envelope adsr d 0 = 0 := by
    intro adsr d ha
    unfold get_amplitude_envelope
    simp only [if_pos ha, zero_div]
  constructor
  · unfold Oscillator.next
    rw [ho]
    simp only [Nat.cast_zero, zero_div]
    rw [if_neg (not_le.mpr hod), henv o.adsr o.total_duration hoa]
    simp
  · unfold LayeredOscillator.next
    rw [hl]
    simp only [Nat.cast_zero, zero_div]
    rw [if_neg (not_le.mpr hld), henv lo.adsr lo.total_duration hla]
    simp

/-- Witness for C4: freshly built oscillators (default ADSR has attack
0.1 > 0) with duration 0.1 produce 0.0 as their first sample. -/
theorem first_sample_eq_zero_witness :
    (Oscillator.next (fun _ => 1) 7 (Oscillator.new 440 WaveForm.Square (1/10))).map Prod.fst
        = some 0 ∧
      (LayeredOscillator.next (fun _ => 1) 7
          (LayeredOscillator.new 440 WaveForm.Sawtooth (1/10))).map Prod.fst = some 0 :=
  first_sample_eq_zero (fun _ => 1) 7 _ _ rfl (by norm_num [Oscillator.new, ADSR.default])
    (by norm_num [Oscillator.new]) rfl (by norm_num [LayeredOscillator.new, ADSR.default])
    (by norm_num [LayeredOscillator.new])

/-- Claim C6: after every `AutomaticGainControl::process_sample` call the
stored gain lies in [0.1, 10.0] (the final clamp), and hence the output
satisfies `|output| ≤ 10 * |input|`, for every input, state and `exp`
model. -/
theorem agc_gain_clamped_and_output_bounded (expq : ℚ → ℚ)
    (agc : AutomaticGainControl) (input : ℚ) :
    (1/10 ≤ (agc.process_sample expq input).2.current_gain ∧
        (agc.process_sample expq input).2.current_gain ≤ 10) ∧
      |(agc.process_sample expq input).1| ≤ 10 * |input| := by
  have key : ∀ g : ℚ,
      (1/10 ≤ clampQ g (1/10) 10 ∧ clampQ g (1/10) 10 ≤ 10) ∧
        |input * clampQ g (1/10) 10| ≤ 10 * |input| := by
    intro g
    have h1 : 1/10 ≤ clampQ g (1/10) 10 := le_max_left _ _
    have h2 : clampQ g (1/10) 10 ≤ 10 := max_le (by norm_num) (min_le_right _ _)
    refine ⟨⟨h1, h2⟩, ?_⟩
    rw [abs_mul]
    have habs : |clampQ g (1/10) 10| ≤ 10 := abs_le.mpr ⟨le_trans (by norm_num) h1, h2⟩
    calc |input| * |clampQ g (1/10) 10| ≤ |input| * 10 :=
          mul_le_mul_of_nonneg_left habs (abs_nonneg input)
      _ = 10 * |input| := mul_comm _ _
  exact key _

/-- Claim C1: at the failing input `DelayBuffer::new(0.05, 0.5, 0.3)`
(`delay_samples = 2`), the inputs 1.0, 0.0, 0.0 give the third output
0.0, not the `0.0*(1-mix) + 1.0*mix = 0.3` the claim requires: after
priming, the history length equals `max(delay_samples, 1)`, so the guard
`delay_samples < len` never holds for `delay_samples ≥ 1` and the delayed
sample is always 0.0. -/
theorem delayBuffer_delayed_always_zero :
    (DelayBuffer.new (1/20) (1/2) (3/10)).delay_samples = 2 ∧
      ((((DelayBuffer.new (1/20) (1/2) (3/10)).process_sample 1).2.process_sample
          0).2.process_sample 0).1 = 0 ∧
      ((((DelayBuffer.new (1/20) (1/2) (3/10)).process_sample 1).2.process_sample
          0).2.process_sample 0).1 ≠
        0 * (1 - 3/10) + 1 * (3/10) := by
  have hnew : DelayBuffer.new (1/20) (1/2) (3/10) = DelayBuffer.mk [] 2 2 (1/2) (3/10) := by
    unfold DelayBuffer.new ratToUsize clampQ SAMPLE_RATE
    norm_num
    decide
  have h1 : (DelayBuffer.mk [] 2 2 (1/2) (3/10)).process_sample 1 =
      (7/10, DelayBuffer.mk [0, 1] 2 2 (1/2) (3/10)) := by
    unfold DelayBuffer.process_sample
    norm_num [List.getD]
  have h2 : (DelayBuffer.mk [0, 1] 2 2 (1/2) (3/10)).process_sample 0 =
      (0, DelayBuffer.mk [1, 0] 2 2 (1/2) (3/10)) := by
    unfold DelayBuffer.process_sample
    norm_num [List.getD]
  have h3 : (DelayBuffer.mk [1, 0] 2 2 (1/2) (3/10)).process_sample 0 =
      (0, DelayBuffer.mk [0, 0] 2 2 (1/2) (3/10)) := by
    unfold DelayBuffer.process_sample
    norm_num [List.getD]
  simp only [hnew, h1, h2, h3]
  norm_num

/-- Claim C2, counterexample: with `room_size = 1/2000 ≤ 2`,
`damping = 1/2 ≤ 1` and `mix = 1/5`, the very first output of the unit
impulse through `Reverb` is `0.7*(1 + 8*(1 - 1/40)) = 154/25 = 6.16`,
whose absolute value exceeds 1: each tap's return re-adds the dry sample
on top of the dry sample the loop starts from. -/
theorem reverb_impulse_first_output_exceeds_one :
    (1:ℚ)/2000 ≤ 2 ∧ (1:ℚ)/2 ≤ 1 ∧
      (Reverb.runImpulse (1/2000) (1/2) (1/5) 0).1 = 154/25 ∧
      ¬ |(Reverb.runImpulse (1/2000) (1/2) (1/5) 0).1| ≤ 1 := by
  have hnew : Reverb.new (1/2000) (1/2) (1/5) =
      [DelayBuffer.mk [] 1 0 (3/10) (1/40), DelayBuffer.mk [] 1 0 (3/10) (1/40),
        DelayBuffer.mk [] 1 0 (3/10) (1/40), DelayBuffer.mk [] 1 0 (3/10) (1/40),
        DelayBuffer.mk [] 1 1 (3/10) (1/40), DelayBuffer.mk [] 1 1 (3/10) (1/40),
        DelayBuffer.mk [] 1 1 (3/10) (1/40), DelayBuffer.mk [] 1 1 (3/10) (1/40)] := by
    unfold Reverb.new reverbDelays DelayBuffer.new ratToUsize clampQ SAMPLE_RATE
    norm_num [List.map]
  have hsA : (DelayBuffer.mk [] 1 0 (3/10) (1/40)).process_sample 1 =
      (39/40, DelayBuffer.mk [1] 1 0 (3/10) (1/40)) := by
    unfold DelayBuffer.process_sample
    norm_num [List.getD]
  have hsB : (DelayBuffer.mk [] 1 1 (3/10) (1/40)).process_sample 1 =
      (39/40, DelayBuffer.mk [1] 1 1 (3/10) (1/40)) := by
    unfold DelayBuffer.process_sample
    norm_num [List.getD]
  have himp : impulse 0 = 1 := by norm_num [impulse]
  have hrun : (Reverb.runImpulse (1/2000) (1/2) (1/5) 0).1 = 154/25 := by
    show (Reverb.step (Reverb.new (1/2000) (1/2) (1/5)) (impulse 0)).1 = 154/25
    rw [hnew, himp]
    unfold Reverb.step
    simp only [List.foldl, hsA, hsB]
    norm_num
  refine ⟨by norm_num, by norm_num, hrun, ?_⟩
  rw [hrun]
  norm_num [abs_of_nonneg]

/-- Claim C5, counterexample: the buffer `[1/20000]` is not all zero and
`target_peak = 1 ∈ (0,1]`, yet `normalize_samples` leaves it unchanged
(its peak does not exceed the `1e-4` guard), so the resulting maximum
absolute value `1/20000` is not within `1e-3` of the target 1. -/
theorem normalize_small_peak_counterexample :
    (1 : ℚ)/20000 ≠ 0 ∧ (0 : ℚ) < 1 ∧ (1 : ℚ) ≤ 1 ∧
      peakOf (normalize_samples [1/20000] 1) = 1/20000 ∧
      ¬ |peakOf (normalize_samples [1/20000] 1) - 1| ≤ 1/1000 := by
  have hp : peakOf [(1 : ℚ)/20000] = 1/20000 := by
    unfold peakOf
    norm_num [List.foldl]
  have hn : normalize_samples [(1 : ℚ)/20000] 1 = [1/20000] := by
    unfold normalize_samples
    rw [hp]
    norm_num
  rw [hn, hp]
  norm_num [abs_of_nonpos]

/-- Claim C8, counterexample: at the negative phase `-(9/10)*(2π)`
(modelling `2π` by any positive constant, here 6.28), the Triangle
waveform returns `4*(-9/10) - 1 = -23/5`, far outside [-1,1]: Rust's `%`
keeps the dividend's sign, so the normalized phase is negative and the
piecewise-linear formula extrapolates below -1. -/
theorem triangle_negative_phase_counterexample :
    generate_wave (fun _ => 0) (628/100) WaveForm.Triangle (-(9/10) * (628/100)) = -23/5 ∧
      ¬ |generate_wave (fun _ => 0) (628/100) WaveForm.Triangle (-(9/10) * (628/100))| ≤ 1 := by
  have h : generate_wave (fun _ => (0:ℚ)) (628/100) WaveForm.Triangle (-(9/10) * (628/100))
      = -23/5 := by
    unfold generate_wave fmod1 qtrunc
    norm_num
  rw [h]
  norm_num [abs_of_nonpos]

/-- The exhaustion test of `Oscillator::next` at duration 0.1 and the
fixed 44100 Hz rate: elapsed time reaches the duration exactly at sample
index 4410. -/
theorem time_ge_iff (n : ℕ) : ((1:ℚ)/10 ≤ (n:ℚ) / ((SAMPLE_RATE : ℕ) : ℚ)) ↔ 4410 ≤ n := by
  unfold SAMPLE_RATE
  push_cast
  rw [le_div_iff₀ (by norm_num : (0:ℚ) < 44100)]
  norm_num

/-- Iterating `Oscillator.next` from a fresh oscillator of duration 0.1
only increments the sample counter while it stays at most 4410. -/
theorem stepN_new_eq (sinf : ℚ → ℚ) (twoPi f : ℚ) (w : WaveForm) :
    ∀ n, n ≤ 4410 →
      Oscillator.stepN sinf twoPi n (Oscillator.new f w (1/10)) =
        { Oscillator.new f w (1/10) with current_sample := n } := by
  intro n
  induction n with
  | zero => intro _; rfl
  | succ m ih =>
      intro hm
      have hmle : m ≤ 4410 := le_trans (Nat.le_succ m) hm
      have hmlt : ¬ (4410 ≤ m) := by omega
      show (match Oscillator.next sinf twoPi
          (Oscillator.stepN sinf twoPi m (Oscillator.new f w (1/10))) with
        | some p => p.2
        | none => Oscillator.stepN sinf twoPi m (Oscillator.new f w (1/10))) = _
      rw [ih hmle]
      have hnext : Oscillator.next sinf twoPi
          { Oscillator.new f w (1/10) with current_sample := m } =
          some (generate_wave sinf twoPi w (((m:ℚ) / ((SAMPLE_RATE:ℕ):ℚ)) * f * twoPi) *
              get_amplitude_envelope ADSR.default (1/10) ((m:ℚ) / ((SAMPLE_RATE:ℕ):ℚ)) * (3/10),
            { Oscillator.new f w (1/10) with current_sample := m + 1 }) := by
        unfold Oscillator.next Oscillator.new
        simp only []
        rw [if_neg]
        intro hcon
        exact hmlt ((time_ge_iff m).mp hcon)
      rw [hnext]

/-- Claim C3: for every frequency, waveform, sine model and `2π` model,
`Oscillator::new(f, w, 0.1)` at the fixed 44100 Hz sample rate yields
`some` on exactly the first 4410 `next` calls and `none` on the 4411-th. -/
theorem oscillator_duration_tenth_yields_4410 (sinf : ℚ → ℚ) (twoPi f : ℚ) (w : WaveForm) :
    (∀ n, n < 4410 → (Oscillator.next sinf twoPi
        (Oscillator.stepN sinf twoPi n (Oscillator.new f w (1/10)))).isSome = true) ∧
      Oscillator.next sinf twoPi
        (Oscillator.stepN sinf twoPi 4410 (Oscillator.new f w (1/10))) = none := by
  constructor
  · intro n hn
    rw [stepN_new_eq sinf twoPi f w n (le_of_lt hn)]
    unfold Oscillator.next Oscillator.new
    simp only []
    rw [if_neg]
    · rfl
    · intro hcon
      have := (time_ge_iff n).mp hcon
      omega
  · rw [stepN_new_eq sinf twoPi f w 4410 le_rfl]
    unfold Oscillator.next Oscillator.new
    simp only []
    rw [if_pos]
    exact (time_ge_iff 4410).mpr le_rfl

/-- Witness for C3 at a 440 Hz sine oscillator: the first pull succeeds
and the pull after 4410 steps is `none`. -/
theorem oscillator_duration_tenth_yields_4410_witness :
    (Oscillator.next (fun _ => 0) 7 (Oscillator.stepN (fun _ => 0) 7 0
        (Oscillator.new 440 WaveForm.Sine (1/10)))).isSome = true ∧
      Oscillator.next (fun _ => 0) 7
        (Oscillator.stepN (fun _ => 0) 7 4410 (Oscillator.new 440 WaveForm.Sine (1/10))) = none :=
  ⟨(oscillator_duration_tenth_yields_4410 (fun _ => 0) 7 440 WaveForm.Sine).1 0 (by norm_num),
    (oscillator_duration_tenth_yields_4410 (fun _ => 0) 7 440 WaveForm.Sine).2⟩

/-- The peak fold commutes with scaling every sample: scaling the buffer
by `g` scales the folded peak by `|g|`, for any nonnegative accumulator. -/
theorem peak_foldl_scale (g : ℚ) (l : List ℚ) : ∀ A : ℚ, 0 ≤ A →
    (l.map (fun x => x * g)).foldl (fun acc x => max acc |x|) (|g| * A) =
      |g| * l.foldl (fun acc x => max acc |x|) A := by
  induction l with
  | nil => intro A _; rfl
  | cons a t ih =>
      intro A hA
      simp only [List.map_cons, List.foldl_cons]
      rw [abs_mul, mul_comm |a| |g|, ← mul_max_of_nonneg _ _ (abs_nonneg g)]
      exact ih (max A |a|) (le_trans hA (le_max_left _ _))

/-- Scaling a buffer scales its peak. -/
theorem peakOf_map_scale (g : ℚ) (l : List ℚ) :
    peakOf (l.map (fun x => x * g)) = |g| * peakOf l := by
  have h := peak_foldl_scale g l 0 le_rfl
  rw [mul_zero] at h
  exact h

/-- When the guard `peak > 1e-4` passes and the target is positive,
`normalize_samples` makes the peak exactly the target. -/
theorem normalize_peak_exact_of (l : List ℚ) (t : ℚ)
    (hp : 1/10000 < peakOf l) (ht0 : 0 < t) :
    peakOf (normalize_samples l t) = t := by
  have hne : l.isEmpty = false := by
    cases l with
    | nil =>
        exfalso
        have h0 : peakOf ([] : List ℚ) = 0 := rfl
        rw [h0] at hp
        norm_num at hp
    | cons a t2 => rfl
  have hppos : (0:ℚ) < peakOf l := lt_trans (by norm_num) hp
  unfold normalize_samples
  simp only [hne, Bool.false_eq_true, if_false, if_pos hp]
  rw [peakOf_map_scale, abs_of_pos (div_pos ht0 hppos), div_mul_cancel₀ _ (ne_of_gt hppos)]

/-- `normalize_samples` leaves a buffer unchanged when its peak already
equals the (positive) target: the gain is `t/t = 1`. -/
theorem normalize_samples_self (m : List ℚ) (t : ℚ) (ht0 : 0 < t) (hm : peakOf m = t) :
    normalize_samples m t = m := by
  unfold normalize_samples
  by_cases hemp : m.isEmpty = true
  · simp [hemp]
  · have hne := eq_false_of_ne_true hemp
    simp only [hne, Bool.false_eq_true, if_false]
    by_cases hgt : 1/10000 < peakOf m
    · rw [if_pos hgt, hm, div_self (ne_of_gt ht0)]
      simp
    · rw [if_neg hgt]

/-- Claim C5 as amended: for a buffer whose peak exceeds the `1e-4`
guard (rather than any non-all-zero buffer) and a target in (0,1], the
peak after `normalize_samples` equals the target exactly (hence within
1e-3), and `peak_normalize` applied twice with the same target equals one
application, for every buffer. -/
theorem normalize_peak_exact_and_idempotent (l : List ℚ) (t : ℚ)
    (hp : 1/10000 < peakOf l) (ht0 : 0 < t) (ht1 : t ≤ 1) :
    peakOf (normalize_samples l t) = t ∧
      ∀ l2 : List ℚ, peak_normalize (peak_normalize l2 t) t = peak_normalize l2 t := by
  refine ⟨normalize_peak_exact_of l t hp ht0, ?_⟩
  intro l2
  show normalize_samples (normalize_samples l2 t) t = normalize_samples l2 t
  by_cases hpl : 1/10000 < peakOf l2
  · exact normalize_samples_self _ t ht0 (normalize_peak_exact_of l2 t hpl ht0)
  · have h1 : normalize_samples l2 t = l2 := by
      unfold normalize_samples
      by_cases hemp : l2.isEmpty = true
      · simp [hemp]
      · simp only [eq_false_of_ne_true hemp, Bool.false_eq_true, if_false, if_neg hpl]
    rw [h1]
    exact h1

/-- Witness for C5: a four-sample buffer with peak 4/5 normalized to
target 9/10, and idempotence on another concrete buffer. -/
theorem normalize_peak_exact_and_idempotent_witness :
    ((1:ℚ)/10000 < peakOf [1/10, -1/2, 3/10, -4/5] ∧ (0:ℚ) < 9/10 ∧ (9:ℚ)/10 ≤ 1) ∧
      peakOf (normalize_samples [1/10, -1/2, 3/10, -4/5] (9/10)) = 9/10 ∧
      peak_normalize (peak_normalize [(1:ℚ)/5, -1, 1/2, -3/10] (9/10)) (9/10) =
        peak_normalize [(1:ℚ)/5, -1, 1/2, -3/10] (9/10) := by
  have hp : (1:ℚ)/10000 < peakOf [1/10, -1/2, 3/10, -4/5] := by
    unfold peakOf
    norm_num [List.foldl, abs_of_pos, abs_of_neg]
  have h := normalize_peak_exact_and_idempotent [1/10, -1/2, 3/10, -4/5] (9/10) hp
    (by norm_num) (by norm_num)
  exact ⟨⟨hp, by norm_num, by norm_num⟩, h.1, h.2 [(1:ℚ)/5, -1, 1/2, -3/10]⟩

/-- With positive cutoff, sample rate and `2π` constant, the filter
coefficient `alpha = dt/(rc+dt)` lies strictly between 0 and 1. -/
theorem lpf_alpha_mem (twoPi cutoff sr : ℚ) (h2p : 0 < twoPi) (hc : 0 < cutoff) (hs : 0 < sr) :
    0 < (LowPassFilter.new twoPi cutoff sr).alpha ∧
      (LowPassFilter.new twoPi cutoff sr).alpha < 1 := by
  unfold LowPassFilter.new
  simp only []
  have hrc : (0:ℚ) < 1 / (twoPi * cutoff) := by positivity
  have hdt : (0:ℚ) < 1 / sr := by positivity
  constructor
  · positivity
  · rw [div_lt_one (by positivity)]
    linarith

/-- Closed form of the step response: starting from a zeroed filter, the
`(n+1)`-th output of constant input 1.0 is `1 - (1-alpha)^(n+1)`. -/
theorem lpf_stepRun_closed (f : LowPassFilter) (hprev : f.previous_output = 0) :
    ∀ n, (f.stepRun n).2.alpha = f.alpha ∧
      (f.stepRun n).2.previous_output = (f.stepRun n).1 ∧
      (f.stepRun n).1 = 1 - (1 - f.alpha) ^ (n + 1) := by
  intro n
  induction n with
  | zero =>
      refine ⟨rfl, rfl, ?_⟩
      show f.alpha * 1 + (1 - f.alpha) * f.previous_output = _
      rw [hprev]
      ring
  | succ m ih =>
      obtain ⟨ha, hp, hv⟩ := ih
      refine ⟨ha, rfl, ?_⟩
      show (f.stepRun m).2.alpha * 1 + (1 - (f.stepRun m).2.alpha) *
        (f.stepRun m).2.previous_output = _
      rw [ha, hp, hv]
      ring

/-- Claim C7: for every `LowPassFilter` with positive cutoff frequency
and positive sample rate (and positive `2π` model), so that alpha lies in
(0,1), the outputs under constant input 1.0 are strictly increasing,
never exceed 1.0, and converge toward 1.0. -/
theorem lowpass_step_response (twoPi cutoff sr : ℚ)
    (h2p : 0 < twoPi) (hc : 0 < cutoff) (hs : 0 < sr) :
    (∀ n, ((LowPassFilter.new twoPi cutoff sr).stepRun n).1 <
        ((LowPassFilter.new twoPi cutoff sr).stepRun (n+1)).1) ∧
      (∀ n, ((LowPassFilter.new twoPi cutoff sr).stepRun n).1 ≤ 1) ∧
      (∀ ε : ℚ, 0 < ε → ∃ N, ∀ n, N ≤ n →
        1 - ε < ((LowPassFilter.new twoPi cutoff sr).stepRun n).1) := by
  obtain ⟨hα0, hα1⟩ := lpf_alpha_mem twoPi cutoff sr h2p hc hs
  have hcl := lpf_stepRun_closed (LowPassFilter.new twoPi cutoff sr) rfl
  have hr0 : (0:ℚ) < 1 - (LowPassFilter.new twoPi cutoff sr).alpha := by linarith
  have hr1 : 1 - (LowPassFilter.new twoPi cutoff sr).alpha < 1 := by linarith
  refine ⟨?_, ?_, ?_⟩
  · intro n
    rw [(hcl n).2.2, (hcl (n+1)).2.2]
    have hpow : (1 - (LowPassFilter.new twoPi cutoff sr).alpha) ^ (n + 1 + 1) <
        (1 - (LowPassFilter.new twoPi cutoff sr).alpha) ^ (n + 1) := by
      rw [pow_succ]
      exact mul_lt_of_lt_one_right (pow_pos hr0 _) hr1
    linarith
  · intro n
    rw [(hcl n).2.2]
    have := pow_pos hr0 (n + 1)
    linarith
  · intro ε hε
    obtain ⟨N, hN⟩ := exists_pow_lt_of_lt_one hε hr1
    refine ⟨N, fun n hn => ?_⟩
    rw [(hcl n).2.2]
    have hle : (1 - (LowPassFilter.new twoPi cutoff sr).alpha) ^ (n + 1) ≤
        (1 - (LowPassFilter.new twoPi cutoff sr).alpha) ^ N :=
      pow_le_pow_of_le_one (le_of_lt hr0) (le_of_lt hr1) (by omega)
    linarith

/-- Witness for C7 at cutoff 1000 Hz and sample rate 44100 Hz. -/
theorem lowpass_step_response_witness :
    (∀ n, ((LowPassFilter.new 7 1000 44100).stepRun n).1 <
        ((LowPassFilter.new 7 1000 44100).stepRun (n+1)).1) ∧
      (∀ n, ((LowPassFilter.new 7 1000 44100).stepRun n).1 ≤ 1) ∧
      (∀ ε : ℚ, 0 < ε → ∃ N, ∀ n, N ≤ n →
        1 - ε < ((LowPassFilter.new 7 1000 44100).stepRun n).1) :=
  lowpass_step_response 7 1000 44100 (by norm_num) (by norm_num) (by norm_num)

/-- For nonnegative arguments, `fmod1` is the fractional part, lying in
[0, 1). -/
theorem fmod1_nonneg_mem (x : ℚ) (hx : 0 ≤ x) : 0 ≤ fmod1 x ∧ fmod1 x < 1 := by
  unfold fmod1 qtrunc
  rw [if_pos hx]
  constructor
  · have := Int.floor_le x
    linarith
  · have := Int.lt_floor_add_one x
    push_cast at this ⊢
    linarith

/-- Claim C8 as amended: for every nonnegative phase (negative phases,
reachable through a layer's `phase_offset`, can leave [-1,1] — see the
counterexample) every waveform's amplitude lies in [-1,1], given that the
sine model is bounded by 1 and the `2π` model is positive; and Square
maps any phase whose sine is exactly 0 to +1. -/
theorem wave_bounded_on_nonneg_phase (sinf : ℚ → ℚ) (twoPi phase : ℚ) (w : WaveForm)
    (hs : ∀ x, |sinf x| ≤ 1) (h2p : 0 < twoPi) (hp : 0 ≤ phase) :
    |generate_wave sinf twoPi w phase| ≤ 1 ∧
      (sinf phase = 0 → generate_wave sinf twoPi WaveForm.Square phase = 1) := by
  have hsq : sinf phase = 0 → generate_wave sinf twoPi WaveForm.Square phase = 1 := by
    intro h0
    unfold generate_wave
    rw [if_pos (le_of_eq h0.symm)]
  refine ⟨?_, hsq⟩
  have hnp := fmod1_nonneg_mem (phase / twoPi) (div_nonneg hp (le_of_lt h2p))
  cases w with
  | Sine => exact hs phase
  | Triangle =>
      unfold generate_wave
      simp only []
      by_cases hlt : fmod1 (phase / twoPi) < 1/2
      · rw [if_pos hlt, abs_le]
        constructor <;> linarith [hnp.1, hnp.2]
      · rw [if_neg hlt, abs_le]
        push_neg at hlt
        constructor <;> linarith [hnp.1, hnp.2]
  | Sawtooth =>
      unfold generate_wave
      simp only []
      rw [abs_le]
      constructor <;> linarith [hnp.1, hnp.2]
  | Square =>
      unfold generate_wave
      by_cases hpos : 0 ≤ sinf phase
      · rw [if_pos hpos]
        norm_num
      · rw [if_neg hpos]
        norm_num

/-- Witness for C8 at phase 3 with the zero sine model: bounded amplitude
for Triangle, and the Square clause applies since the model's sine is 0. -/
theorem wave_bounded_on_nonneg_phase_witness :
    |generate_wave (fun _ => 0) (628/100) WaveForm.Triangle 3| ≤ 1 ∧
      ((fun _ => (0:ℚ)) 3 = 0 →
        generate_wave (fun _ => 0) (628/100) WaveForm.Square 3 = 1) :=
  wave_bounded_on_nonneg_phase (fun _ => 0) (628/100) 3 WaveForm.Triangle
    (fun x => by norm_num) (by norm_num) (by norm_num)

/-- The zero-padded history `DelayBuffer::process_sample` works on. -/
def paddedOf (db : DelayBuffer) : List ℚ :=
  db.buffer ++ List.replicate (db.max_delay_samples - db.buffer.length) 0

/-- The delayed sample `process_sample` reads. -/
def delayedOf (db : DelayBuffer) : ℚ :=
  if db.delay_samples < (paddedOf db).length
  then (paddedOf db).getD ((paddedOf db).length - db.delay_samples - 1) 0 else 0

/-- The history after pushing the feedback output. -/
def pushedOf (db : DelayBuffer) (input : ℚ) : List ℚ :=
  paddedOf db ++ [input + delayedOf db * db.feedback]

/-- The history after the capacity eviction. -/
def nextBufOf (db : DelayBuffer) (input : ℚ) : List ℚ :=
  if db.max_delay_samples < (pushedOf db input).length
  then (pushedOf db input).tail else pushedOf db input

/-- `process_sample` in terms of the named pieces. -/
theorem process_sample_eq (db : DelayBuffer) (input : ℚ) :
    db.process_sample input =
      (input * (1 - db.mix) + delayedOf db * db.mix,
        { db with buffer := nextBufOf db input }) := rfl

/-- A delay buffer whose history entries lie in [0,1] and whose feedback
and mix are inside their clamped ranges. -/
def GoodBuf (db : DelayBuffer) : Prop :=
  (∀ x ∈ db.buffer, 0 ≤ x ∧ x ≤ 1) ∧
    0 ≤ db.feedback ∧ db.feedback ≤ 19/20 ∧ 0 ≤ db.mix ∧ db.mix ≤ 1

/-- A delay buffer whose history is all zeros (in particular a fresh one). -/
def ZeroBuf (db : DelayBuffer) : Prop := ∀ x ∈ db.buffer, x = 0

/-- `getD` with default 0 stays within the bounds of the list entries. -/
theorem getD_mem_bounds (l : List ℚ) (n : ℕ) (h : ∀ x ∈ l, 0 ≤ x ∧ x ≤ 1) :
    0 ≤ l.getD n 0 ∧ l.getD n 0 ≤ 1 := by
  induction l generalizing n with
  | nil => simp [List.getD]
  | cons a t ih =>
      cases n with
      | zero => simpa using h a (List.mem_cons_self a t)
      | succ m =>
          rw [List.getD_cons_succ]
          exact ih m (fun x hx => h x (List.mem_cons_of_mem a hx))

/-- `getD` with default 0 on an all-zero list is 0. -/
theorem getD_eq_zero (l : List ℚ) (n : ℕ) (h : ∀ x ∈ l, x = 0) : l.getD n 0 = 0 := by
  induction l generalizing n with
  | nil => simp [List.getD]
  | cons a t ih =>
      cases n with
      | zero => simpa using h a (List.mem_cons_self a t)
      | succ m =>
          rw [List.getD_cons_succ]
          exact ih m (fun x hx => h x (List.mem_cons_of_mem a hx))

/-- Zero-padding keeps all entries in [0,1]. -/
theorem paddedOf_bounds (db : DelayBuffer) (h : ∀ x ∈ db.buffer, 0 ≤ x ∧ x ≤ 1) :
    ∀ x ∈ paddedOf db, 0 ≤ x ∧ x ≤ 1 := by
  intro x hx
  rcases List.mem_append.mp hx with h1 | h2
  · exact h x h1
  · rw [List.eq_of_mem_replicate h2]
    norm_num

/-- Zero-padding keeps an all-zero history all zero. -/
theorem paddedOf_zero (db : DelayBuffer) (h : ZeroBuf db) : ∀ x ∈ paddedOf db, x = 0 := by
  intro x hx
  rcases List.mem_append.mp hx with h1 | h2
  · exact h x h1
  · exact List.eq_of_mem_replicate h2

/-- The delayed sample stays within the bounds of the history entries. -/
theorem delayedOf_bounds (db : DelayBuffer) (h : ∀ x ∈ db.buffer, 0 ≤ x ∧ x ≤ 1) :
    0 ≤ delayedOf db ∧ delayedOf db ≤ 1 := by
  unfold delayedOf
  split
  · exact getD_mem_bounds _ _ (paddedOf_bounds db h)
  · norm_num

/-- The delayed sample read from an all-zero history is 0. -/
theorem delayedOf_eq_zero (db : DelayBuffer) (h : ZeroBuf db) : delayedOf db = 0 := by
  unfold delayedOf
  split
  · exact getD_eq_zero _ _ (paddedOf_zero db h)
  · rfl

/-- If the pushed feedback output is in [0,1], the next history's entries
stay in [0,1]. -/
theorem nextBufOf_bounds (db : DelayBuffer) (input : ℚ)
    (h : ∀ x ∈ db.buffer, 0 ≤ x ∧ x ≤ 1)
    (hout0 : 0 ≤ input + delayedOf db * db.feedback)
    (hout1 : input + delayedOf db * db.feedback ≤ 1) :
    ∀ x ∈ nextBufOf db input, 0 ≤ x ∧ x ≤ 1 := by
  have hpush : ∀ x ∈ pushedOf db input, 0 ≤ x ∧ x ≤ 1 := by
    intro x hx
    rcases List.mem_append.mp hx with h1 | h2
    · exact paddedOf_bounds db h x h1
    · rw [List.mem_singleton.mp h2]
      exact ⟨hout0, hout1⟩
  intro x hx
  unfold nextBufOf at hx
  split at hx
  · exact hpush x (List.mem_of_mem_tail hx)
  · exact hpush x hx

/-- Feeding 0 into a good delay buffer returns a value in [0,1] and keeps
the buffer good. -/
theorem process_zero_of_good (db : DelayBuffer) (h : GoodBuf db) :
    0 ≤ (db.process_sample 0).1 ∧ (db.process_sample 0).1 ≤ 1 ∧
      GoodBuf (db.process_sample 0).2 := by
  obtain ⟨hbuf, hf0, hf1, hm0, hm1⟩ := h
  have hD := delayedOf_bounds db hbuf
  rw [process_sample_eq]
  dsimp only
  have hout0 : (0:ℚ) ≤ 0 + delayedOf db * db.feedback := by
    have := mul_nonneg hD.1 hf0
    linarith
  have hout1 : 0 + delayedOf db * db.feedback ≤ 1 := by
    have := mul_le_one₀ hD.2 hf0 (le_trans hf1 (by norm_num))
    linarith
  refine ⟨?_, ?_, ?_, hf0, hf1, hm0, hm1⟩
  · have := mul_nonneg hD.1 hm0
    linarith
  · have := mul_le_one₀ hD.2 hm0 hm1
    linarith
  · exact nextBufOf_bounds db 0 hbuf hout0 hout1

/-- Feeding 1 into a good all-zero delay buffer returns `1 - mix ∈ [0,1]`
and keeps the buffer good: the delayed sample is still 0 and the pushed
feedback output is exactly 1. -/
theorem process_one_of_zero (db : DelayBuffer) (h : GoodBuf db) (hz : ZeroBuf db) :
    0 ≤ (db.process_sample 1).1 ∧ (db.process_sample 1).1 ≤ 1 ∧
      GoodBuf (db.process_sample 1).2 := by
  obtain ⟨hbuf, hf0, hf1, hm0, hm1⟩ := h
  have hD := delayedOf_eq_zero db hz
  rw [process_sample_eq, hD]
  dsimp only
  have hout0 : (0:ℚ) ≤ 1 + 0 * db.feedback := by norm_num
  have hout1 : 1 + 0 * db.feedback ≤ 1 := by norm_num
  refine ⟨?_, ?_, ?_, hf0, hf1, hm0, hm1⟩
  · have : 1 * (1 - db.mix) + 0 * db.mix = 1 - db.mix := by ring
    rw [this]
    linarith
  · have : 1 * (1 - db.mix) + 0 * db.mix = 1 - db.mix := by ring
    rw [this]
    linarith
  · have := nextBufOf_bounds db 1 hbuf
    rw [hD] at this
    exact this hout0 hout1

/-- The reverb fold adds the per-tap returns to the accumulator and
appends the per-tap successor states. -/
theorem step_foldl_spec (sample : ℚ) :
    ∀ (bufs : List DelayBuffer) (a : ℚ) (l0 : List DelayBuffer),
      (bufs.foldl (fun (acc : ℚ × List DelayBuffer) db =>
          let r := db.process_sample sample
          (acc.1 + r.1, acc.2 ++ [r.2])) (a, l0)) =
        (a + (bufs.map (fun db => (db.process_sample sample).1)).sum,
          l0 ++ bufs.map (fun db => (db.process_sample sample).2)) := by
  intro bufs
  induction bufs with
  | nil =>
      intro a l0
      simp
  | cons b t ih =>
      intro a l0
      simp only [List.foldl_cons, List.map_cons, List.sum_cons]
      rw [ih]
      rw [Prod.mk.injEq]
      constructor
      · ring
      · simp

/-- A list of rationals in [0,1] sums to at most its length. -/
theorem sum_bounds_of_mem (l : List ℚ) (h : ∀ x ∈ l, 0 ≤ x ∧ x ≤ 1) :
    0 ≤ l.sum ∧ l.sum ≤ l.length := by
  induction l with
  | nil => simp
  | cons a t ih =>
      have ha := h a (List.mem_cons_self a t)
      have ht := ih (fun x hx => h x (List.mem_cons_of_mem a hx))
      simp only [List.sum_cons, List.length_cons]
      push_cast
      constructor
      · linarith [ht.1]
      · linarith [ht.2]

/-- A fresh delay buffer is good: its history is empty and the clamps put
feedback in [0, 0.95] and mix in [0, 1]. -/
theorem goodBuf_new (a b c : ℚ) : GoodBuf (DelayBuffer.new a b c) := by
  refine ⟨?_, le_max_left _ _, max_le (by norm_num) (min_le_right _ _),
    le_max_left _ _, max_le (by norm_num) (min_le_right _ _)⟩
  intro x hx
  exact absurd hx (List.not_mem_nil x)

/-- A fresh delay buffer has an all-zero (empty) history. -/
theorem zeroBuf_new (a b c : ℚ) : ZeroBuf (DelayBuffer.new a b c) := by
  intro x hx
  exact absurd hx (List.not_mem_nil x)

/-- One reverb step sums the tap returns onto the dry sample (scaled by
0.7) and advances every tap. -/
theorem reverb_step_eval (bufs : List DelayBuffer) (sample : ℚ) :
    Reverb.step bufs sample =
      ((sample + (bufs.map (fun db => (db.process_sample sample).1)).sum) * (7/10),
        bufs.map (fun db => (db.process_sample sample).2)) := by
  unfold Reverb.step
  rw [step_foldl_spec]
  dsimp only
  rw [List.nil_append]

/-- Running the unit impulse keeps all eight taps good and every output
sample in [0, 6.3]. -/
theorem runImpulse_invariant (room damping mix : ℚ) :
    ∀ n, (∀ db ∈ (Reverb.runImpulse room damping mix n).2, GoodBuf db) ∧
      (Reverb.runImpulse room damping mix n).2.length = 8 ∧
      0 ≤ (Reverb.runImpulse room damping mix n).1 ∧
      (Reverb.runImpulse room damping mix n).1 ≤ 63/10 := by
  intro n
  induction n with
  | zero =>
      have hlen : (Reverb.new room damping mix).length = 8 := by
        unfold Reverb.new reverbDelays
        simp
      have hgood : ∀ db ∈ Reverb.new room damping mix, GoodBuf db := by
        intro db hdb
        unfold Reverb.new at hdb
        obtain ⟨d, hd, rfl⟩ := List.mem_map.mp hdb
        exact goodBuf_new _ _ _
      have hzero : ∀ db ∈ Reverb.new room damping mix, ZeroBuf db := by
        intro db hdb
        unfold Reverb.new at hdb
        obtain ⟨d, hd, rfl⟩ := List.mem_map.mp hdb
        exact zeroBuf_new _ _ _
      have hrw : Reverb.runImpulse room damping mix 0 =
          Reverb.step (Reverb.new room damping mix) 1 := rfl
      rw [hrw, reverb_step_eval]
      dsimp only
      have hvals : ∀ x ∈ (Reverb.new room damping mix).map
          (fun db => (db.process_sample 1).1), 0 ≤ x ∧ x ≤ 1 := by
        intro x hx
        obtain ⟨db, hdb, rfl⟩ := List.mem_map.mp hx
        have h := process_one_of_zero db (hgood db hdb) (hzero db hdb)
        exact ⟨h.1, h.2.1⟩
      have hsum := sum_bounds_of_mem _ hvals
      rw [List.length_map, hlen] at hsum
      refine ⟨?_, ?_, ?_, ?_⟩
      · intro db hdb
        obtain ⟨db0, hdb0, rfl⟩ := List.mem_map.mp hdb
        exact (process_one_of_zero db0 (hgood db0 hdb0) (hzero db0 hdb0)).2.2
      · rw [List.length_map, hlen]
      · have := hsum.1
        linarith
      · have := hsum.2
        norm_num at this ⊢
        linarith
  | succ m ih =>
      obtain ⟨hgood, hlen, _, _⟩ := ih
      have hrw : Reverb.runImpulse room damping mix (m+1) =
          Reverb.step (Reverb.runImpulse room damping mix m).2 (impulse (m+1)) := rfl
      have himp : impulse (m+1) = 0 := rfl
      rw [hrw, himp, reverb_step_eval]
      dsimp only
      have hvals : ∀ x ∈ (Reverb.runImpulse room damping mix m).2.map
          (fun db => (db.process_sample 0).1), 0 ≤ x ∧ x ≤ 1 := by
        intro x hx
        obtain ⟨db, hdb, rfl⟩ := List.mem_map.mp hx
        have h := process_zero_of_good db (hgood db hdb)
        exact ⟨h.1, h.2.1⟩
      have hsum := sum_bounds_of_mem _ hvals
      rw [List.length_map, hlen] at hsum
      refine ⟨?_, ?_, ?_, ?_⟩
      · intro db hdb
        obtain ⟨db0, hdb0, rfl⟩ := List.mem_map.mp hdb
        exact (process_zero_of_good db0 (hgood db0 hdb0)).2.2
      · rw [List.length_map, hlen]
      · have := hsum.1
        linarith
      · have := hsum.2
        norm_num at this ⊢
        linarith

/-- Claim C2 as amended: feeding a unit impulse through a `Reverb` built
with `room_size ≤ 2.0` and `damping ≤ 1.0` never produces an output with
absolute value above `0.7 * 9 = 6.3` (the bound 1 of the original claim
fails — see the counterexample — because every tap's return re-adds the
dry sample). -/
theorem reverb_impulse_output_bounded (room damping mix : ℚ)
    (hroom : room ≤ 2) (hdamp : damping ≤ 1) (n : ℕ) :
    |(Reverb.runImpulse room damping mix n).1| ≤ 63/10 := by
  have h := runImpulse_invariant room damping mix n
  rw [abs_le]
  exact ⟨by linarith [h.2.2.1], h.2.2.2⟩

/-- Witness for the amended C2 at `room_size = 1`, `damping = 1/2`,
`mix = 1/5` and the first output sample. -/
theorem reverb_impulse_output_bounded_witness :
    |(Reverb.runImpulse 1 (1/2) (1/5) 0).1| ≤ 63/10 :=
  reverb_impulse_output_bounded 1 (1/2) (1/5) (by norm_num) (by norm_num) 0

end Jingle
